import Mathlib

/-!
Shallow embedding of the data-cleaning repository: `src/data_cleaner.py`
(class `DataCleaner`) and `src/statistics_utils.py` (class `StatisticsUtils`).

Modelling conventions:
* Python floats are modelled as rationals (`ℚ`); the one genuinely
  irrational computation (`numpy.std`, a square root) is modelled in `ℝ`.
* A pandas DataFrame is modelled row-major: a list of column names, a
  parallel list of column dtypes, and a list of rows, each row a list of
  cells.  A cell is either the missing marker (NaN/None), a number or a
  string (a list of characters).
* Python exceptions are modelled by `Except Err`: `KeyError` becomes
  `Err.MissingColumn`, `TypeError` becomes `Err.TypeMismatch`, and
  `ValueError` becomes `Err.InvalidArgument` or `Err.DegenerateInput`
  following the error taxonomy the operations document.
* All operations are pure: "the input table is not mutated" holds by
  construction in the embedding.
-/

/-- Error taxonomy of the two modules.  `MissingColumn` and `TypeMismatch`
carry the full list of offending column names, as the Python code formats
the whole list into the exception message. -/
inductive Err where
  | MissingColumn (cols : List String)
  | TypeMismatch (cols : List String)
  | InvalidArgument (msg : String)
  | DegenerateInput (msg : String)
  deriving Repr, DecidableEq

/-- A table cell: the missing marker (NaN / None), a numeric value, or a
string value (modelled as a list of characters so that stripping is
structural). -/
inductive Cell where
  | na
  | num (q : ℚ)
  | str (s : List Char)
  deriving Repr, DecidableEq

/-- Returns true exactly on the missing marker (what `pandas.dropna`
removes). -/
def Cell.isNa : Cell → Bool
  | .na => true
  | _ => false

/-- Numeric view of a cell: `some q` for a number, `none` otherwise
(pandas numeric reductions such as `quantile` skip NaN). -/
def Cell.toNum : Cell → Option ℚ
  | .num q => some q
  | _ => none

/-- Declared element kind of a column (the dtype pandas probes with
`is_string_dtype` / `is_numeric_dtype`). -/
inductive Dtype where
  | numeric
  | string
  | other
  deriving Repr, DecidableEq

/-- A pandas DataFrame, row-major.  Invariant (not enforced): every row
has length `colNames.length` and `dtypes.length = colNames.length`. -/
structure DataFrame where
  colNames : List String
  dtypes : List Dtype
  rows : List (List Cell)
  deriving Repr, DecidableEq

/-- Index of a column name in the frame's column list. -/
def DataFrame.colIdx (df : DataFrame) (c : String) : ℕ :=
  df.colNames.indexOf c

/-- The cell of row `r` in column `c` of `df`. -/
def DataFrame.cellAt (df : DataFrame) (r : List Cell) (c : String) : Cell :=
  r.getD (df.colIdx c) Cell.na

/-- The declared dtype of column `c`. -/
def DataFrame.dtypeOf (df : DataFrame) (c : String) : Dtype :=
  (df.dtypes.getD (df.colIdx c) Dtype.other)

/-- The numeric values present in column `c`, in row order, NaN skipped
(what a pandas numeric reduction over the column sees). -/
def DataFrame.colValues (df : DataFrame) (c : String) : List ℚ :=
  df.rows.filterMap (fun r => (df.cellAt r c).toNum)

namespace StatisticsUtils

/-- Population mean, `numpy.ndarray.mean`: sum divided by length
(`ℚ` division by zero yields 0, the empty case is never relied on). -/
def mean (l : List ℚ) : ℚ := l.sum / l.length

/-- Population variance with denominator `N`, the square of
`numpy.ndarray.std()` with default parameters. -/
def variance (l : List ℚ) : ℚ :=
  ((l.map (fun x => (x - mean l) ^ 2)).sum) / l.length

/-- Population standard deviation `numpy.ndarray.std()`: the square root
of the population variance, an irrational number in general, hence `ℝ`. -/
noncomputable def std (l : List ℚ) : ℝ := Real.sqrt (variance l)

/-- Embeds `StatisticsUtils.moving_average`.  The code first rejects a
non-positive window (`window <= 0`, so `window` is modelled as `ℤ`), then
a window larger than the array (`len(arr) < window`); the 1-D check
cannot fail in this embedding since only 1-D sequences are representable.
`np.convolve(arr, ones(window)/window, mode="valid")` is the list of the
`len(arr) - window + 1` arithmetic means of the contiguous sub-windows of
size `window`. -/
def moving_average (arr : List ℚ) (window : ℤ) : Except Err (List ℚ) :=
  if window ≤ 0 then
    .error (.InvalidArgument ("window must be a positive integer"))
  else if (arr.length : ℤ) < window then
    .error (.InvalidArgument ("window must not be larger than the array size"))
  else
    let w := window.toNat
    .ok ((List.range (arr.length - w + 1)).map
      (fun i => ((arr.drop i).take w).sum / (w : ℚ)))

/-- Embeds `StatisticsUtils.zscore`.  The code tests `arr.std() == 0`; for the
empty array `numpy` yields NaN for `std`, and `NaN == 0` is false, so the
guard fires exactly when the array is nonempty and its variance is zero.
Otherwise it returns `(arr - mean) / std` elementwise. -/
noncomputable def zscore (l : List ℚ) : Except Err (List ℝ) :=
  if l ≠ [] ∧ variance l = 0 then
    .error (.DegenerateInput ("Standard deviation is zero; z-scores are undefined"))
  else
    .ok (l.map (fun x : ℚ => ((x : ℝ) - (mean l : ℝ)) / std l))

/-- Minimum of a list by `numpy`'s reduction over a nonempty array
(`[]` never reaches this in `min_max_scale`, see there). -/
def minV : List ℚ → ℚ
  | [] => 0
  | a :: t => t.foldl min a

/-- Maximum of a list by `numpy`'s reduction over a nonempty array. -/
def maxV : List ℚ → ℚ
  | [] => 0
  | a :: t => t.foldl max a

/-- Embeds `StatisticsUtils.min_max_scale`.  On the empty array `numpy`'s
`arr.min()` raises `ValueError` ("zero-size array to reduction
operation"), modelled as `InvalidArgument`; otherwise the code compares
min and max and either rejects a constant array or rescales. -/
def min_max_scale (l : List ℚ) : Except Err (List ℚ) :=
  if l = [] then
    .error (.InvalidArgument ("zero-size array to reduction operation"))
  else if minV l = maxV l then
    .error (.DegenerateInput ("All values are equal; min-max scaling is undefined"))
  else
    .ok (l.map (fun x => (x - minV l) / (maxV l - minV l)))

end StatisticsUtils

namespace DataCleaner

/-- Python `str.strip()`: drop leading and trailing whitespace, internal
whitespace untouched. -/
def strip (s : List Char) : List Char :=
  (((s.dropWhile Char.isWhitespace).reverse.dropWhile Char.isWhitespace).reverse)

/-- Action of `Series.str.strip()` on one cell: strings are stripped, the
missing marker stays missing, and a non-string element under the `.str`
accessor becomes NaN. -/
def stripCell : Cell → Cell
  | .str s => .str (strip s)
  | .na => .na
  | .num _ => .na

/-- Quantile of an already sorted nonempty list at probability `p`, by
the conventional linear-interpolation rule `numpy`/pandas use: with
`h = p * (n - 1)`, `i = ⌊h⌋` and `γ = h - i`, the result is
`v[i] + γ * (v[i+1] - v[i])` (with `v[i+1]` read as `v[i]` when `i + 1`
falls off the end).  On the empty list the value is junk (pandas gives
NaN); callers guard against that case. -/
def quantileSorted (v : List ℚ) (p : ℚ) : ℚ :=
  let n := v.length
  let h : ℚ := p * ((n : ℚ) - 1)
  let i : ℕ := (⌊h⌋).toNat
  let γ : ℚ := h - (i : ℚ)
  let a := v.getD i 0
  let b := v.getD (i + 1) a
  a + γ * (b - a)

/-- Embeds `Series.quantile(p)` with the default linear interpolation:
sort the values and interpolate. -/
def quantile (v : List ℚ) (p : ℚ) : ℚ :=
  quantileSorted (v.insertionSort (· ≤ ·)) p

/-- Embeds `DataCleaner.drop_invalid_rows`: first collect every requested column
name absent from the frame and fail with all of them at once; then keep
exactly the rows with no missing marker in any of the requested columns
(`df.dropna(subset=cols)`), preserving row order. -/
def drop_invalid_rows (df : DataFrame) (cols : List String) :
    Except Err DataFrame :=
  let missing := cols.filter (fun c => ! df.colNames.contains c)
  if missing ≠ [] then
    .error (.MissingColumn missing)
  else
    .ok { df with
          rows := df.rows.filter
            (fun r => cols.all (fun c => ! (df.cellAt r c).isNa)) }

/-- Embeds `DataCleaner.trim_strings`: check existence of every requested column
(failing with the full list of missing names), then that every requested
column is string-dtyped (failing with the full list of offenders), then
strip every cell of the requested columns, leaving other columns
untouched. -/
def trim_strings (df : DataFrame) (cols : List String) :
    Except Err DataFrame :=
  let missing := cols.filter (fun c => ! df.colNames.contains c)
  if missing ≠ [] then
    .error (.MissingColumn missing)
  else
    let nonString := cols.filter (fun c => ! (df.dtypeOf c == Dtype.string))
    if nonString ≠ [] then
      .error (.TypeMismatch nonString)
    else
      .ok { df with
            rows := df.rows.map (fun r =>
              List.zipWith
                (fun name cell =>
                  if cols.contains name then stripCell cell else cell)
                df.colNames r) }

/-- Embeds `DataCleaner.remove_outliers_iqr`: check the column exists, check it
is numeric, compute `q1 = quantile 0.25`, `q3 = quantile 0.75`,
`iqr = q3 - q1`, bounds `q1 - factor*iqr` and `q3 + factor*iqr`, and keep
exactly the rows whose value satisfies `lower ≤ v ∧ v ≤ upper` (a NaN
cell compares false on both sides in pandas, hence is dropped). -/
def remove_outliers_iqr (df : DataFrame) (col : String) (factor : ℚ) :
    Except Err DataFrame :=
  if ¬ df.colNames.contains col then
    .error (.MissingColumn [col])
  else if ¬ df.dtypeOf col = Dtype.numeric then
    .error (.TypeMismatch [col])
  else
    let vals := df.colValues col
    let q1 := quantile vals (1/4)
    let q3 := quantile vals (3/4)
    let iqr := q3 - q1
    let lower := q1 - factor * iqr
    let upper := q3 + factor * iqr
    .ok { df with
          rows := df.rows.filter (fun r =>
            match (df.cellAt r col).toNum with
            | some v => decide (lower ≤ v ∧ v ≤ upper)
            | none => false) }

end DataCleaner

open StatisticsUtils DataCleaner

/-! ### Helper lemmas about the numpy-style fold reductions -/

theorem foldl_min_le_init (t : List ℚ) : ∀ a : ℚ, t.foldl min a ≤ a := by
  induction t with
  | nil => intro a; simp
  | cons b t ih =>
    intro a
    calc (b :: t).foldl min a = t.foldl min (min a b) := rfl
    _ ≤ min a b := ih (min a b)
    _ ≤ a := min_le_left _ _

theorem foldl_min_le_mem (t : List ℚ) :
    ∀ a : ℚ, ∀ x ∈ t, t.foldl min a ≤ x := by
  induction t with
  | nil => intro a x hx; simp at hx
  | cons b t ih =>
    intro a x hx
    rcases List.mem_cons.mp hx with rfl | hx
    · calc (x :: t).foldl min a = t.foldl min (min a x) := rfl
      _ ≤ min a x := foldl_min_le_init t _
      _ ≤ x := min_le_right _ _
    · exact ih (min a b) x hx

theorem init_le_foldl_max (t : List ℚ) : ∀ a : ℚ, a ≤ t.foldl max a := by
  induction t with
  | nil => intro a; simp
  | cons b t ih =>
    intro a
    calc a ≤ max a b := le_max_left _ _
    _ ≤ t.foldl max (max a b) := ih (max a b)
    _ = (b :: t).foldl max a := rfl

theorem mem_le_foldl_max (t : List ℚ) :
    ∀ a : ℚ, ∀ x ∈ t, x ≤ t.foldl max a := by
  induction t with
  | nil => intro a x hx; simp at hx
  | cons b t ih =>
    intro a x hx
    rcases List.mem_cons.mp hx with rfl | hx
    · calc x ≤ max a x := le_max_right _ _
      _ ≤ t.foldl max (max a x) := init_le_foldl_max t _
      _ = (x :: t).foldl max a := rfl
    · exact ih (max a b) x hx

theorem minV_le_of_mem {a : ℚ} {t : List ℚ} {x : ℚ} (hx : x ∈ a :: t) :
    minV (a :: t) ≤ x := by
  rcases List.mem_cons.mp hx with rfl | hx
  · exact foldl_min_le_init t x
  · exact foldl_min_le_mem t a x hx

theorem le_maxV_of_mem {a : ℚ} {t : List ℚ} {x : ℚ} (hx : x ∈ a :: t) :
    x ≤ maxV (a :: t) := by
  rcases List.mem_cons.mp hx with rfl | hx
  · exact init_le_foldl_max t x
  · exact mem_le_foldl_max t a x hx

/-! ### Claims about `StatisticsUtils` -/

/-- C3: for every sequence `s` and integer window `w` with
`0 < w ≤ length s`, `moving_average` succeeds and returns exactly
`length s - w + 1` values, the `i`-th of which is the arithmetic mean of
the `w`-element sub-window `s[i .. i+w-1]` (the window has exactly `w`
elements, so dividing its sum by `w` is its mean). -/
theorem moving_average_spec (s : List ℚ) (w : ℤ)
    (h1 : 0 < w) (h2 : w ≤ (s.length : ℤ)) :
    ∃ out : List ℚ, moving_average s w = .ok out ∧
      out.length = s.length - w.toNat + 1 ∧
      ∀ i : ℕ, i < out.length →
        ((s.drop i).take w.toNat).length = w.toNat ∧
        out.getD i 0 = ((s.drop i).take w.toNat).sum / (w.toNat : ℚ) := by
  have hw : ¬ w ≤ 0 := by omega
  have hl : ¬ (s.length : ℤ) < w := by omega
  refine ⟨(List.range (s.length - w.toNat + 1)).map
      (fun i => ((s.drop i).take w.toNat).sum / ((w.toNat : ℚ))), ?_, ?_, ?_⟩
  · simp only [moving_average, if_neg hw, if_neg hl]
  · simp
  · intro i hi
    simp only [List.length_map, List.length_range] at hi
    constructor
    · rw [List.length_take, List.length_drop]
      omega
    · rw [List.getD_eq_getElem?_getD, List.getElem?_eq_getElem (by simpa using hi)]
      simp

/-- C3 witness: the concrete instance from the specification,
`moving_average [1,2,3,4] 2 = [3/2, 5/2, 7/2]` of length 3. -/
theorem moving_average_spec_witness :
    ∃ out : List ℚ, moving_average [1, 2, 3, 4] 2 = .ok out ∧
      out.length = 3 ∧ out.getD 0 0 = 3/2 ∧ out.getD 1 0 = 5/2 ∧
      out.getD 2 0 = 7/2 := by
  obtain ⟨out, hok, hlen, helts⟩ :=
    moving_average_spec [1, 2, 3, 4] 2 (by decide) (by decide)
  have hlen3 : out.length = 3 := by simpa using hlen
  refine ⟨out, hok, hlen3, ?_, ?_, ?_⟩
  · rw [(helts 0 (by omega)).2]
    simp only [show Int.toNat 2 = 2 from rfl]
    norm_num
  · rw [(helts 1 (by omega)).2]
    simp only [show Int.toNat 2 = 2 from rfl]
    norm_num
  · rw [(helts 2 (by omega)).2]
    simp only [show Int.toNat 2 = 2 from rfl]
    norm_num

/-- C9: `moving_average` fails with `InvalidArgument` when the window is
not positive, and with `InvalidArgument` (a different message, the same
error kind) when the window exceeds the sequence length. -/
theorem moving_average_invalid (s : List ℚ) (w : ℤ) :
    (w ≤ 0 →
      moving_average s w =
        .error (.InvalidArgument ("window must be a positive integer"))) ∧
    ((s.length : ℤ) < w →
      moving_average s w =
        .error (.InvalidArgument ("window must not be larger than the array size"))) := by
  constructor
  · intro h
    simp only [moving_average, if_pos h]
  · intro h
    have hw : ¬ w ≤ 0 := by omega
    simp only [moving_average, if_neg hw, if_pos h]

/-- C9 witness: window 0 and window 4 on a 3-element sequence. -/
theorem moving_average_invalid_witness :
    moving_average [1, 2, 3] 0 =
      .error (.InvalidArgument ("window must be a positive integer")) ∧
    moving_average [1, 2, 3] 4 =
      .error (.InvalidArgument ("window must not be larger than the array size")) :=
  ⟨(moving_average_invalid [1, 2, 3] 0).1 (by decide),
   (moving_average_invalid [1, 2, 3] 4).2 (by decide)⟩

/-- C10: on the empty sequence the zero-standard-deviation guard of
`zscore` does not fire (numpy's standard deviation of an empty array is
NaN, which compares unequal to zero), and the empty sequence is
returned, not a `DegenerateInput` error. -/
theorem zscore_empty_ok : zscore ([] : List ℚ) = .ok [] := by
  simp [zscore]

/-- C5: on a nonempty sequence whose minimum differs from its maximum,
`min_max_scale` returns `(x - min) / (max - min)` for every element in
order; every result lies in `[0, 1]`, elements equal to the minimum map
to 0 and elements equal to the maximum map to 1.  When the minimum
equals the maximum it fails with `DegenerateInput` instead. -/
theorem min_max_scale_spec (a : ℚ) (t : List ℚ) :
    (minV (a :: t) ≠ maxV (a :: t) →
      min_max_scale (a :: t) =
        .ok ((a :: t).map
          (fun x => (x - minV (a :: t)) / (maxV (a :: t) - minV (a :: t)))) ∧
      (∀ x ∈ a :: t,
        0 ≤ (x - minV (a :: t)) / (maxV (a :: t) - minV (a :: t)) ∧
        (x - minV (a :: t)) / (maxV (a :: t) - minV (a :: t)) ≤ 1) ∧
      (minV (a :: t) - minV (a :: t)) / (maxV (a :: t) - minV (a :: t)) = 0 ∧
      (maxV (a :: t) - minV (a :: t)) / (maxV (a :: t) - minV (a :: t)) = 1) ∧
    (minV (a :: t) = maxV (a :: t) →
      min_max_scale (a :: t) =
        .error (.DegenerateInput
          ("All values are equal; min-max scaling is undefined"))) := by
  constructor
  · intro hne
    have hlt : minV (a :: t) < maxV (a :: t) := by
      have h1 : minV (a :: t) ≤ a := minV_le_of_mem (List.mem_cons_self a t)
      have h2 : a ≤ maxV (a :: t) := le_maxV_of_mem (List.mem_cons_self a t)
      exact lt_of_le_of_ne (h1.trans h2) hne
    have hpos : 0 < maxV (a :: t) - minV (a :: t) := sub_pos.mpr hlt
    refine ⟨?_, ?_, ?_, ?_⟩
    · simp only [min_max_scale, if_neg (List.cons_ne_nil a t), if_neg hne]
    · intro x hx
      constructor
      · exact div_nonneg (sub_nonneg.mpr (minV_le_of_mem hx)) hpos.le
      · rw [div_le_one hpos]
        exact sub_le_sub_right (le_maxV_of_mem hx) _
    · rw [sub_self, zero_div]
    · exact div_self hpos.ne'
  · intro heq
    simp only [min_max_scale, if_neg (List.cons_ne_nil a t), if_pos heq]

/-! ### Variance and standard deviation -/

theorem variance_nonneg (l : List ℚ) : 0 ≤ variance l := by
  apply div_nonneg _ (Nat.cast_nonneg _)
  apply List.sum_nonneg
  intro y hy
  obtain ⟨x, -, rfl⟩ := List.mem_map.mp hy
  exact sq_nonneg _

theorem std_eq_zero_iff (l : List ℚ) : std l = 0 ↔ variance l = 0 := by
  rw [std, Real.sqrt_eq_zero']
  constructor
  · intro h
    have h' : (variance l : ℝ) ≤ 0 := h
    have := (Rat.cast_nonneg (K := ℝ)).mpr (variance_nonneg l)
    exact_mod_cast le_antisymm h' this
  · intro h
    rw [h]
    exact le_of_eq (by norm_num)

/-- C4: for a nonempty sequence, the population standard deviation σ is
zero exactly when the population variance (denominator N) is zero; when
σ ≠ 0, `zscore` returns `(x − μ) / σ` for every element in order,
preserving the length; when σ = 0 it fails with `DegenerateInput`. -/
theorem zscore_spec (l : List ℚ) (hne : l ≠ []) :
    (std l = 0 ↔ variance l = 0) ∧
    (std l ≠ 0 →
      zscore l = .ok (l.map (fun x : ℚ => ((x : ℝ) - (mean l : ℝ)) / std l)) ∧
      (l.map (fun x : ℚ => ((x : ℝ) - (mean l : ℝ)) / std l)).length = l.length) ∧
    (std l = 0 →
      zscore l =
        .error (.DegenerateInput
          ("Standard deviation is zero; z-scores are undefined"))) := by
  have hiff := std_eq_zero_iff l
  refine ⟨hiff, ?_, ?_⟩
  · intro hs
    have hvne : ¬ (l ≠ [] ∧ variance l = 0) :=
      fun hand => hs (hiff.mpr hand.2)
    rw [zscore, if_neg hvne]
    exact ⟨rfl, List.length_map _ _⟩
  · intro hs
    have hand : l ≠ [] ∧ variance l = 0 := ⟨hne, hiff.mp hs⟩
    rw [zscore, if_pos hand]

/-- C4 witness: `zscore [0, 2]` has μ = 1, σ = 1 and value `[-1, 1]`. -/
theorem zscore_spec_witness : zscore [0, 2] = .ok [(-1 : ℝ), 1] := by
  have hvar : variance [0, 2] = 1 := by
    norm_num [variance, mean]
  have hstd : std [0, 2] = 1 := by
    rw [std, hvar]
    norm_num
  have h := ((zscore_spec [0, 2] (by decide)).2.1 (by rw [hstd]; norm_num)).1
  rw [h, hstd]
  have hmean : mean [0, 2] = 1 := by norm_num [mean]
  rw [hmean]
  norm_num

/-! ### Stripping lemmas -/

theorem dropWhile_dropWhile {α : Type} (p : α → Bool) (l : List α) :
    (l.dropWhile p).dropWhile p = l.dropWhile p := by
  induction l with
  | nil => rfl
  | cons a t ih =>
    by_cases h : p a = true
    · rw [List.dropWhile_cons_of_pos h]
      exact ih
    · rw [List.dropWhile_cons_of_neg h, List.dropWhile_cons_of_neg h]

theorem dropWhile_eq_self_of_prefix {α : Type} (p : α → Bool)
    {l l' : List α} (hl : l.dropWhile p = l) (hp : l' <+: l) :
    l'.dropWhile p = l' := by
  cases l' with
  | nil => rfl
  | cons a t =>
    obtain ⟨s, hs⟩ := hp
    have hla : l = a :: (t ++ s) := by rw [← hs]; rfl
    have hpa : p a = false := by
      by_contra hcontra
      have hpa : p a = true := by simpa using hcontra
      rw [hla, List.dropWhile_cons_of_pos hpa] at hl
      have hsub := (List.dropWhile_suffix (l := t ++ s) p).sublist.length_le
      rw [hl] at hsub
      simp at hsub
    exact List.dropWhile_cons_of_neg (by simp [hpa])

theorem strip_idem_aux {α : Type} (p : α → Bool) (s : List α) :
    ((((((s.dropWhile p).reverse.dropWhile p).reverse).dropWhile p).reverse.dropWhile p).reverse) =
      ((s.dropWhile p).reverse.dropWhile p).reverse := by
  have hA : (s.dropWhile p).dropWhile p = s.dropWhile p := dropWhile_dropWhile p s
  have h2 : ((s.dropWhile p).reverse.dropWhile p).reverse <+:
      ((s.dropWhile p).reverse).reverse :=
    List.reverse_prefix.mpr (List.dropWhile_suffix p)
  rw [List.reverse_reverse] at h2
  have hT := dropWhile_eq_self_of_prefix p hA h2
  rw [hT, List.reverse_reverse, dropWhile_dropWhile]

theorem strip_strip (s : List Char) : strip (strip s) = strip s := by
  simp only [strip]
  exact strip_idem_aux _ s

theorem stripCell_idem (c : Cell) : stripCell (stripCell c) = stripCell c := by
  cases c with
  | na => rfl
  | num q => rfl
  | str s =>
    simp only [stripCell]
    rw [strip_strip]

theorem zipWith_trim_idem (cols : List String) (names : List String)
    (r : List Cell) :
    List.zipWith
      (fun name cell => if cols.contains name then stripCell cell else cell)
      names
      (List.zipWith
        (fun name cell => if cols.contains name then stripCell cell else cell)
        names r) =
    List.zipWith
      (fun name cell => if cols.contains name then stripCell cell else cell)
      names r := by
  induction names generalizing r with
  | nil => rfl
  | cons n ns ih =>
    cases r with
    | nil => rfl
    | cons c cs =>
      simp only [List.zipWith_cons_cons]
      rw [ih]
      congr 1
      dsimp only
      by_cases h : cols.contains n = true
      · rw [if_pos h, if_pos h, stripCell_idem]
      · rw [if_neg h, if_neg h]

/-! ### Quantile lemmas -/

theorem getD_default_irrel (v : List ℚ) {k : ℕ} (hk : k < v.length) (d : ℚ) :
    v.getD k d = v.getD k 0 := by
  rw [List.getD_eq_getElem?_getD, List.getElem?_eq_getElem hk,
    List.getD_eq_getElem?_getD, List.getElem?_eq_getElem hk]
  rfl

theorem getD_of_length_le (v : List ℚ) {k : ℕ} (hk : v.length ≤ k) (d : ℚ) :
    v.getD k d = d := by
  rw [List.getD_eq_getElem?_getD, List.getElem?_eq_none hk]
  rfl

theorem sorted_getD_le (v : List ℚ) (hv : v.Sorted (· ≤ ·)) {i j : ℕ}
    (hij : i ≤ j) (hj : j < v.length) : v.getD i 0 ≤ v.getD j 0 := by
  have hi : i < v.length := lt_of_le_of_lt hij hj
  rw [List.getD_eq_getElem?_getD, List.getElem?_eq_getElem hi,
    List.getD_eq_getElem?_getD, List.getElem?_eq_getElem hj]
  have := @List.Sorted.rel_get_of_le ℚ (· ≤ ·) _ v hv ⟨i, hi⟩ ⟨j, hj⟩
    (Fin.mk_le_mk.mpr hij)
  simpa using this

theorem getD_succ_self_le (v : List ℚ) (hv : v.Sorted (· ≤ ·)) {k : ℕ}
    (hk : k < v.length) : v.getD k 0 ≤ v.getD (k + 1) (v.getD k 0) := by
  by_cases hk1 : k + 1 < v.length
  · rw [getD_default_irrel v hk1]
    exact sorted_getD_le v hv (Nat.le_succ k) hk1
  · rw [getD_of_length_le v (show v.length ≤ k + 1 by omega)]

/-- Monotonicity of the linear-interpolation formula in the fractional
index `hq`, for a sorted value list. -/
theorem interp_le (v : List ℚ) (hv : v.Sorted (· ≤ ·)) {hq hq' : ℚ}
    (h0 : 0 ≤ hq) (hle : hq ≤ hq') (hub : hq' ≤ (v.length : ℚ) - 1) :
    v.getD (⌊hq⌋).toNat 0 + (hq - ((⌊hq⌋).toNat : ℚ)) *
        (v.getD ((⌊hq⌋).toNat + 1) (v.getD (⌊hq⌋).toNat 0) -
          v.getD (⌊hq⌋).toNat 0) ≤
      v.getD (⌊hq'⌋).toNat 0 + (hq' - ((⌊hq'⌋).toNat : ℚ)) *
        (v.getD ((⌊hq'⌋).toNat + 1) (v.getD (⌊hq'⌋).toNat 0) -
          v.getD (⌊hq'⌋).toNat 0) := by
  have h0' : 0 ≤ hq' := h0.trans hle
  have hfl0 : 0 ≤ ⌊hq⌋ := Int.floor_nonneg.mpr h0
  have hfl0' : 0 ≤ ⌊hq'⌋ := Int.floor_nonneg.mpr h0'
  have hcast : (((⌊hq⌋).toNat : ℕ) : ℚ) = ((⌊hq⌋ : ℤ) : ℚ) := by
    exact_mod_cast Int.toNat_of_nonneg hfl0
  have hcast' : (((⌊hq'⌋).toNat : ℕ) : ℚ) = ((⌊hq'⌋ : ℤ) : ℚ) := by
    exact_mod_cast Int.toNat_of_nonneg hfl0'
  have hi_le : (((⌊hq⌋).toNat : ℕ) : ℚ) ≤ hq := by
    rw [hcast]; exact Int.floor_le hq
  have hi_lt : hq < (((⌊hq⌋).toNat : ℕ) : ℚ) + 1 := by
    rw [hcast]
    have := Int.lt_floor_add_one hq
    exact_mod_cast this
  have hi_le' : (((⌊hq'⌋).toNat : ℕ) : ℚ) ≤ hq' := by
    rw [hcast']; exact Int.floor_le hq'
  have hfub' : ⌊hq'⌋ ≤ (v.length : ℤ) - 1 := by
    have hrw : ((v.length : ℚ) - 1) = (((v.length : ℤ) - 1 : ℤ) : ℚ) := by
      push_cast; ring
    have hm := Int.floor_mono hub
    rwa [hrw, Int.floor_intCast] at hm
  have hff : ⌊hq⌋ ≤ ⌊hq'⌋ := Int.floor_mono hle
  have hn1 : 1 ≤ v.length := by
    have : (0 : ℤ) ≤ (v.length : ℤ) - 1 := le_trans hfl0' hfub'
    omega
  have hi'n : (⌊hq'⌋).toNat < v.length := by omega
  have hin : (⌊hq⌋).toNat < v.length := by omega
  have hii' : (⌊hq⌋).toNat ≤ (⌊hq'⌋).toNat := by omega
  have habk := getD_succ_self_le v hv hin
  have habk' := getD_succ_self_le v hv hi'n
  rcases lt_or_eq_of_le hii' with hlt2 | heq
  · -- the lower index is strictly smaller: chain through v[i+1] ≤ v[i']
    have hblt : (⌊hq⌋).toNat + 1 < v.length := by omega
    rw [getD_default_irrel v hblt]
    have habi : v.getD (⌊hq⌋).toNat 0 ≤ v.getD ((⌊hq⌋).toNat + 1) 0 :=
      sorted_getD_le v hv (Nat.le_succ _) hblt
    have hγ1 : hq - (((⌊hq⌋).toNat : ℕ) : ℚ) ≤ 1 := by linarith
    have m1 : (hq - (((⌊hq⌋).toNat : ℕ) : ℚ)) *
        (v.getD ((⌊hq⌋).toNat + 1) 0 - v.getD (⌊hq⌋).toNat 0) ≤
        1 * (v.getD ((⌊hq⌋).toNat + 1) 0 - v.getD (⌊hq⌋).toNat 0) :=
      mul_le_mul_of_nonneg_right hγ1 (by linarith)
    have m2 : 0 ≤ (hq' - (((⌊hq'⌋).toNat : ℕ) : ℚ)) *
        (v.getD ((⌊hq'⌋).toNat + 1) (v.getD (⌊hq'⌋).toNat 0) -
          v.getD (⌊hq'⌋).toNat 0) :=
      mul_nonneg (by linarith) (by linarith)
    have s2 : v.getD ((⌊hq⌋).toNat + 1) 0 ≤ v.getD (⌊hq'⌋).toNat 0 :=
      sorted_getD_le v hv (by omega) hi'n
    linarith
  · -- equal indices: only the fractional part grows
    rw [heq]
    have hbb : 0 ≤ v.getD ((⌊hq'⌋).toNat + 1) (v.getD (⌊hq'⌋).toNat 0) -
        v.getD (⌊hq'⌋).toNat 0 := by linarith
    have m3 : (hq - (((⌊hq'⌋).toNat : ℕ) : ℚ)) *
        (v.getD ((⌊hq'⌋).toNat + 1) (v.getD (⌊hq'⌋).toNat 0) -
          v.getD (⌊hq'⌋).toNat 0) ≤
        (hq' - (((⌊hq'⌋).toNat : ℕ) : ℚ)) *
        (v.getD ((⌊hq'⌋).toNat + 1) (v.getD (⌊hq'⌋).toNat 0) -
          v.getD (⌊hq'⌋).toNat 0) :=
      mul_le_mul_of_nonneg_right (by linarith) hbb
    linarith

/-- Monotonicity of `quantileSorted` in the probability, on a sorted
nonempty list. -/
theorem quantileSorted_mono (v : List ℚ) (hv : v.Sorted (· ≤ ·))
    (hne : v ≠ []) {p p' : ℚ} (hp0 : 0 ≤ p) (hpp : p ≤ p') (hp1 : p' ≤ 1) :
    quantileSorted v p ≤ quantileSorted v p' := by
  have hn1 : 1 ≤ v.length := List.length_pos.mpr hne
  have hn1q : (1 : ℚ) ≤ (v.length : ℚ) := by exact_mod_cast hn1
  have hd : (0 : ℚ) ≤ (v.length : ℚ) - 1 := by linarith
  have h0 : 0 ≤ p * ((v.length : ℚ) - 1) := mul_nonneg hp0 hd
  have hle : p * ((v.length : ℚ) - 1) ≤ p' * ((v.length : ℚ) - 1) :=
    mul_le_mul_of_nonneg_right hpp hd
  have hub : p' * ((v.length : ℚ) - 1) ≤ (v.length : ℚ) - 1 := by
    calc p' * ((v.length : ℚ) - 1) ≤ 1 * ((v.length : ℚ) - 1) :=
        mul_le_mul_of_nonneg_right hp1 hd
    _ = (v.length : ℚ) - 1 := one_mul _
  simpa only [quantileSorted] using interp_le v hv h0 hle hub

/-- Monotonicity of the pandas quantile in the probability, on a
nonempty value list. -/
theorem quantile_mono (vals : List ℚ) (hne : vals ≠ []) {p p' : ℚ}
    (hp0 : 0 ≤ p) (hpp : p ≤ p') (hp1 : p' ≤ 1) :
    quantile vals p ≤ quantile vals p' := by
  have hs : (vals.insertionSort (· ≤ ·)).Sorted (· ≤ ·) :=
    List.sorted_insertionSort _ _
  have hne' : vals.insertionSort (· ≤ ·) ≠ [] := by
    intro h
    have hperm := List.perm_insertionSort (· ≤ ·) vals
    rw [h] at hperm
    exact hne (List.Perm.nil_eq hperm).symm
  rw [quantile, quantile]
  exact quantileSorted_mono _ hs hne' hp0 hpp hp1

/-- A quantile of a one-element list is its element, for any
probability. -/
theorem quantile_singleton (c p : ℚ) : quantile [c] p = c := by
  simp [quantile, quantileSorted, List.insertionSort, List.orderedInsert]

/-- Shared unfolding of `remove_outliers_iqr` on the happy path. -/
theorem remove_outliers_iqr_ok (df : DataFrame) (col : String) (f : ℚ)
    (hcol : df.colNames.contains col) (hdt : df.dtypeOf col = Dtype.numeric) :
    remove_outliers_iqr df col f = .ok ⟨df.colNames, df.dtypes,
      df.rows.filter (fun r =>
        match (df.cellAt r col).toNum with
        | some v => decide
            (quantile (df.colValues col) (1/4)
                - f * (quantile (df.colValues col) (3/4)
                  - quantile (df.colValues col) (1/4)) ≤ v ∧
              v ≤ quantile (df.colValues col) (3/4)
                + f * (quantile (df.colValues col) (3/4)
                  - quantile (df.colValues col) (1/4)))
        | none => false)⟩ := by
  rw [remove_outliers_iqr, if_neg (not_not_intro hcol),
    if_neg (not_not_intro hdt)]

/-! ### Claims about `DataCleaner` -/

/-- C1: when every requested column exists, `drop_invalid_rows` succeeds
and returns a table with the same columns and dtypes whose rows are a
subsequence of the input rows (so surviving rows are unchanged, in their
original relative order, and none are added), contain no missing marker
in any requested column, and are exactly the input rows that are free of
missing markers in the requested columns. -/
theorem drop_invalid_rows_spec (df : DataFrame) (cols : List String)
    (h : ∀ c ∈ cols, df.colNames.contains c) :
    ∃ df', drop_invalid_rows df cols = .ok df' ∧
      df'.colNames = df.colNames ∧ df'.dtypes = df.dtypes ∧
      df'.rows.Sublist df.rows ∧
      (∀ r ∈ df'.rows, ∀ c ∈ cols, (df.cellAt r c).isNa = false) ∧
      df'.rows = df.rows.filter
        (fun r => cols.all (fun c => ! (df.cellAt r c).isNa)) := by
  have h1 : ¬ (cols.filter (fun c => ! df.colNames.contains c) ≠ []) := by
    simp only [ne_eq, not_not]
    apply List.filter_eq_nil_iff.mpr
    intro a ha
    simp only [h a ha]
    decide
  refine ⟨⟨df.colNames, df.dtypes,
      df.rows.filter (fun r => cols.all (fun c => ! (df.cellAt r c).isNa))⟩,
    ?_, rfl, rfl, List.filter_sublist _, ?_, rfl⟩
  · simp only [drop_invalid_rows, if_neg h1]
  · intro r hr c hc
    simp only [List.mem_filter, List.all_eq_true] at hr
    simpa using hr.2 c hc

/-- C1 witness: a two-row frame where the second row is missing in
column a; exactly the first row survives. -/
theorem drop_invalid_rows_spec_witness :
    ∃ df', drop_invalid_rows
        ⟨["a", "b"], [Dtype.numeric, Dtype.string],
         [[Cell.num 1, Cell.str ['x']], [Cell.na, Cell.str ['y']]]⟩ ["a"] =
      .ok df' ∧ df'.rows = [[Cell.num 1, Cell.str ['x']]] := by
  obtain ⟨df', hok, -, -, -, -, hrows⟩ :=
    drop_invalid_rows_spec
      ⟨["a", "b"], [Dtype.numeric, Dtype.string],
       [[Cell.num 1, Cell.str ['x']], [Cell.na, Cell.str ['y']]]⟩ ["a"]
      (by decide)
  exact ⟨df', hok, by rw [hrows]; decide⟩

/-- C2: with an existing numeric column, `remove_outliers_iqr` succeeds,
preserves columns and dtypes, and keeps exactly the rows whose value `v`
satisfies `Q1 - f·IQR ≤ v ≤ Q3 + f·IQR` (inclusive on both ends, order
preserved by `filter`), where `Q1` and `Q3` are the linearly-interpolated
25th and 75th percentiles of the column's values and `IQR = Q3 - Q1`;
when `IQR = 0` a row with a value survives exactly when its value equals
the collapsed bound `Q1`. -/
theorem remove_outliers_iqr_spec (df : DataFrame) (col : String) (f : ℚ)
    (hcol : df.colNames.contains col) (hdt : df.dtypeOf col = Dtype.numeric) :
    ∃ df', remove_outliers_iqr df col f = .ok df' ∧
      df'.colNames = df.colNames ∧ df'.dtypes = df.dtypes ∧
      df'.rows = df.rows.filter (fun r =>
        match (df.cellAt r col).toNum with
        | some v => decide
            (quantile (df.colValues col) (1/4)
                - f * (quantile (df.colValues col) (3/4)
                  - quantile (df.colValues col) (1/4)) ≤ v ∧
              v ≤ quantile (df.colValues col) (3/4)
                + f * (quantile (df.colValues col) (3/4)
                  - quantile (df.colValues col) (1/4)))
        | none => false) ∧
      (quantile (df.colValues col) (3/4)
          - quantile (df.colValues col) (1/4) = 0 →
        ∀ r ∈ df.rows, ∀ v : ℚ, (df.cellAt r col).toNum = some v →
          (r ∈ df'.rows ↔ v = quantile (df.colValues col) (1/4))) := by
  refine ⟨_, remove_outliers_iqr_ok df col f hcol hdt, rfl, rfl, rfl, ?_⟩
  intro hiqr r hr v hv
  have hz : f * (quantile (df.colValues col) (3/4)
      - quantile (df.colValues col) (1/4)) = 0 := by
    rw [hiqr, mul_zero]
  constructor
  · intro hmem
    have hp := (List.mem_filter.mp hmem).2
    simp only [hv] at hp
    rw [decide_eq_true_eq] at hp
    obtain ⟨hl, hu⟩ := hp
    have hle1 : v ≤ quantile (df.colValues col) (1/4) := by linarith
    have hle2 : quantile (df.colValues col) (1/4) ≤ v := by linarith
    exact le_antisymm hle1 hle2
  · intro hveq
    apply List.mem_filter.mpr
    refine ⟨hr, ?_⟩
    simp only [hv]
    rw [decide_eq_true_eq]
    subst hveq
    constructor
    · linarith
    · linarith

/-- C2 witness: a frame with one numeric value 5 has Q1 = Q3 = 5, IQR 0,
and its single row survives since its value equals the collapsed
bound. -/
theorem remove_outliers_iqr_spec_witness :
    ∃ df', remove_outliers_iqr
        ⟨["a"], [Dtype.numeric], [[Cell.num 5]]⟩ "a" (3/2) = .ok df' ∧
      df'.rows = [[Cell.num 5]] := by
  obtain ⟨df', hok, -, -, hrows, -⟩ :=
    remove_outliers_iqr_spec ⟨["a"], [Dtype.numeric], [[Cell.num 5]]⟩ "a"
      (3/2) (by decide) rfl
  refine ⟨df', hok, ?_⟩
  rw [hrows]
  have hvals : DataFrame.colValues
      ⟨["a"], [Dtype.numeric], [[Cell.num 5]]⟩ "a" = [5] := rfl
  have hcell : (DataFrame.cellAt ⟨["a"], [Dtype.numeric], [[Cell.num 5]]⟩
      [Cell.num 5] "a").toNum = some 5 := rfl
  rw [hvals, quantile_singleton, quantile_singleton]
  simp only [List.filter_cons, List.filter_nil, hcell]
  norm_num

/-- C8: with factor 1.5, `remove_outliers_iqr` keeps every row whose
value in the column equals the column's median (the 50th
linearly-interpolated percentile): the median lies between Q1 and Q3,
which lie inside the widened bounds. -/
theorem remove_outliers_keeps_median (df : DataFrame) (col : String)
    (hcol : df.colNames.contains col) (hdt : df.dtypeOf col = Dtype.numeric)
    (hvals : df.colValues col ≠ []) (r : List Cell) (hr : r ∈ df.rows)
    (hm : (df.cellAt r col).toNum =
      some (quantile (df.colValues col) (1/2))) :
    ∃ df', remove_outliers_iqr df col (3/2) = .ok df' ∧ r ∈ df'.rows := by
  refine ⟨_, remove_outliers_iqr_ok df col (3/2) hcol hdt, ?_⟩
  apply List.mem_filter.mpr
  refine ⟨hr, ?_⟩
  simp only [hm]
  rw [decide_eq_true_eq]
  have h14 : quantile (df.colValues col) (1/4) ≤
      quantile (df.colValues col) (1/2) :=
    quantile_mono _ hvals (by norm_num) (by norm_num) (by norm_num)
  have h24 : quantile (df.colValues col) (1/2) ≤
      quantile (df.colValues col) (3/4) :=
    quantile_mono _ hvals (by norm_num) (by norm_num) (by norm_num)
  constructor
  · linarith
  · linarith

/-- C8 witness: the single-row frame with value 7, which is its own
median, survives outlier removal. -/
theorem remove_outliers_keeps_median_witness :
    ∃ df', remove_outliers_iqr
        ⟨["m"], [Dtype.numeric], [[Cell.num 7]]⟩ "m" (3/2) = .ok df' ∧
      [Cell.num 7] ∈ df'.rows := by
  apply remove_outliers_keeps_median ⟨["m"], [Dtype.numeric], [[Cell.num 7]]⟩
    "m" (by decide) rfl (by decide) [Cell.num 7] (by decide)
  have h1 : DataFrame.colValues
      ⟨["m"], [Dtype.numeric], [[Cell.num 7]]⟩ "m" = [7] := rfl
  rw [h1, quantile_singleton]
  rfl

/-- C6: with any requested name absent, both `drop_invalid_rows` and
`trim_strings` fail with `MissingColumn` carrying the full list of all
missing names (the input is untouched: both are pure functions of the
frame); with all names present, `trim_strings` then checks dtypes and
fails with `TypeMismatch` carrying the full list of all non-text
columns.  Existence is checked before dtype: the first conjunct applies
whatever the dtypes are. -/
theorem missing_and_type_errors (df : DataFrame) (cols : List String) :
    ((∃ c ∈ cols, ¬ df.colNames.contains c) →
      drop_invalid_rows df cols =
        .error (.MissingColumn
          (cols.filter (fun c => ! df.colNames.contains c))) ∧
      trim_strings df cols =
        .error (.MissingColumn
          (cols.filter (fun c => ! df.colNames.contains c)))) ∧
    ((∀ c ∈ cols, df.colNames.contains c) →
      (∃ c ∈ cols, df.dtypeOf c ≠ Dtype.string) →
      trim_strings df cols =
        .error (.TypeMismatch
          (cols.filter (fun c => ! (df.dtypeOf c == Dtype.string))))) := by
  constructor
  · rintro ⟨c, hc, hnc⟩
    have hb : (! df.colNames.contains c) = true := by simpa using hnc
    have hne : cols.filter (fun c => ! df.colNames.contains c) ≠ [] :=
      fun heq => (List.filter_eq_nil_iff.mp heq c hc) hb
    constructor
    · simp only [drop_invalid_rows, if_pos hne]
    · simp only [trim_strings, if_pos hne]
  · rintro hall ⟨c, hc, hdt⟩
    have h1 : ¬ (cols.filter (fun c => ! df.colNames.contains c) ≠ []) := by
      simp only [ne_eq, not_not]
      apply List.filter_eq_nil_iff.mpr
      intro a ha
      simp only [hall a ha]
      decide
    have hb : (! (df.dtypeOf c == Dtype.string)) = true := by simpa using hdt
    have hns : cols.filter (fun c => ! (df.dtypeOf c == Dtype.string)) ≠ [] :=
      fun heq => (List.filter_eq_nil_iff.mp heq c hc) hb
    simp only [trim_strings, if_neg h1, if_pos hns]

/-- C6 witness: a frame with a string column a and a numeric column b.
Requesting columns z and y yields `MissingColumn [z, y]` from both
operations; requesting a and b makes `trim_strings` fail with
`TypeMismatch [b]`. -/
theorem missing_and_type_errors_witness :
    drop_invalid_rows
        ⟨["a", "b"], [Dtype.string, Dtype.numeric], []⟩ ["z", "y"] =
      .error (.MissingColumn ["z", "y"]) ∧
    trim_strings ⟨["a", "b"], [Dtype.string, Dtype.numeric], []⟩ ["z", "y"] =
      .error (.MissingColumn ["z", "y"]) ∧
    trim_strings ⟨["a", "b"], [Dtype.string, Dtype.numeric], []⟩ ["a", "b"] =
      .error (.TypeMismatch ["b"]) := by
  have h := (missing_and_type_errors
    ⟨["a", "b"], [Dtype.string, Dtype.numeric], []⟩ ["z", "y"]).1 (by decide)
  have h2 := (missing_and_type_errors
    ⟨["a", "b"], [Dtype.string, Dtype.numeric], []⟩ ["a", "b"]).2
    (by decide) (by decide)
  refine ⟨?_, ?_, ?_⟩
  · rw [h.1]; congr 1
  · rw [h.2]; congr 1
  · rw [h2]; congr 1

/-- C7: `trim_strings` is idempotent: whenever it succeeds, applying it
again with the same column names returns the result unchanged, so two
applications equal one. -/
theorem trim_strings_idem (df df' : DataFrame) (cols : List String)
    (h : trim_strings df cols = .ok df') :
    trim_strings df' cols = .ok df' := by
  by_cases hmiss : cols.filter (fun c => ! df.colNames.contains c) ≠ []
  · rw [trim_strings, if_pos hmiss] at h
    exact Except.noConfusion h
  · by_cases hns : cols.filter (fun c => ! (df.dtypeOf c == Dtype.string)) ≠ []
    · rw [trim_strings, if_neg hmiss, if_pos hns] at h
      exact Except.noConfusion h
    · rw [trim_strings, if_neg hmiss, if_neg hns] at h
      simp only [Except.ok.injEq] at h
      subst h
      rw [trim_strings]
      simp only [DataFrame.dtypeOf, DataFrame.colIdx] at hns ⊢
      rw [if_neg hmiss, if_neg hns]
      congr 2
      rw [List.map_map]
      apply List.map_congr_left
      intro r _
      exact zipWith_trim_idem cols df.colNames r

/-- C7 witness: trimming the already-trimmed one-cell frame returns it
unchanged, via idempotence applied to the raw frame containing a padded
string. -/
theorem trim_strings_idem_witness :
    trim_strings ⟨["a"], [Dtype.string], [[Cell.str ['h']]]⟩ ["a"] =
      .ok ⟨["a"], [Dtype.string], [[Cell.str ['h']]]⟩ :=
  trim_strings_idem ⟨["a"], [Dtype.string], [[Cell.str [' ', 'h', ' ']]]⟩
    ⟨["a"], [Dtype.string], [[Cell.str ['h']]]⟩ ["a"] rfl

/-- C5 witness: `min_max_scale [2,4,6] = [0, 1/2, 1]`, and on the
constant sequence `[3,3,3]` the operation fails with
`DegenerateInput`. -/
theorem min_max_scale_spec_witness :
    min_max_scale [2, 4, 6] = .ok [0, 1/2, 1] ∧
    min_max_scale [3, 3, 3] =
      .error (.DegenerateInput
        ("All values are equal; min-max scaling is undefined")) := by
  constructor
  · have h := ((min_max_scale_spec 2 [4, 6]).1 (by decide)).1
    rw [h]
    congr 1
    norm_num [minV, maxV, min_def, max_def]
  · exact (min_max_scale_spec 3 [3, 3]).2 (by decide)
